import Mathlib

/-!
Verification of the attendance repository's real-time change-propagation core:
the photo-reference normalizer (`src/routers/transactions.py`,
`_normalize_photo_path` / `_extract_from_token`), the WebSocket broadcast hub
(`src/ws_manager.py`, `ConnectionManager`), and the effect traces of the
transaction CRUD handlers (`src/routers/transactions.py`).

Strings are modelled as `List Char`; a `String`-level wrapper is provided for
statements.  Python semantics embedded: `str.strip` strips the whitespace
characters, `re.split` on the class `[\s,;]+` splits on maximal runs of
whitespace/comma/semicolon and the comprehension keeps non-empty pieces,
`re.sub` with an anchored pattern removes one leading drive prefix,
`str.lstrip` drops leading slashes, `str.find`/slicing yields the suffix at
the first occurrence of a pattern.
-/

namespace Attendance

/-- Whitespace characters matched by Python fixed str.strip and the regex
class backslash-s on this data (ASCII range). -/
def pySpace (c : Char) : Bool :=
  c = ' ' || c = '\t' || c = '\n' || c = '\r' || c = '\x0b' || c = '\x0c'

/-- Separator class of the token split regex: whitespace, comma, semicolon. -/
def isSep (c : Char) : Bool := pySpace c || c = ',' || c = ';'

/-- Python str.strip over a character predicate: drop matching characters from
both ends. -/
def pyStrip (s : List Char) : List Char :=
  ((s.dropWhile pySpace).reverse.dropWhile pySpace).reverse

/-- Accumulator-based splitter: maximal runs of non-separator characters, in
order; empty pieces are dropped.  This is the embedding of
re.split on the class [whitespace,comma,semicolon]+ followed by filtering
out empty strings (transactions.py line 39). -/
def splitAux : List Char → List Char → List (List Char)
  | [], acc => if acc.isEmpty then [] else [acc.reverse]
  | c :: cs, acc =>
    if isSep c then
      (if acc.isEmpty then splitAux cs [] else acc.reverse :: splitAux cs [])
    else
      splitAux cs (c :: acc)

/-- The candidate token list of the normalizer. -/
def tokenize (s : List Char) : List (List Char) := splitAux s []

/-- Does the token start with http or https scheme (transactions.py line 47). -/
def isHttpTok (t : List Char) : Bool :=
  "http://".data.isPrefixOf t || "https://".data.isPrefixOf t

/-- Remove a leading single-letter-plus-colon drive prefix, once
(re.sub with anchored pattern letter-colon, transactions.py line 51). -/
def stripDrive (t : List Char) : List Char :=
  match t with
  | c :: d :: rest => if c.isAlpha && d == ':' then rest else t
  | _ => t

/-- Does the token start with a single-letter-plus-colon drive prefix. -/
def hasDrive (t : List Char) : Bool :=
  match t with
  | c :: d :: _ => c.isAlpha && d == ':'
  | _ => false

/-- The storage-folder marker, the literal prefix of uploaded media paths. -/
def uploadsPat : List Char := "uploads/".data

/-- Suffix of the list starting at the first occurrence of the pattern, if
any: the embedding of tok.find (pattern) followed by slicing from that
index (transactions.py lines 57-59). -/
def substrFrom (pat : List Char) : List Char → Option (List Char)
  | [] => if pat.isPrefixOf [] then some [] else none
  | c :: cs =>
    if pat.isPrefixOf (c :: cs) then some (c :: cs) else substrFrom pat cs

/-- Embedding of the nested helper _extract_from_token
(transactions.py lines 41-66). -/
def extractFromToken (tok0 : List Char) : Option (List Char) :=
  let tok1 := pyStrip tok0
  if tok1.isEmpty then none
  else if isHttpTok tok1 then some tok1
  else
    let tok2 := stripDrive tok1
    let tok3 := tok2.dropWhile (fun c => c == '/')
    match substrFrom uploadsPat tok3 with
    | some s => some s
    | none =>
      if uploadsPat.isPrefixOf tok3 then some tok3
      else if tok3.isEmpty then none else some tok3

/-- First loop of the normalizer (transactions.py lines 69-72): the first
token whose extracted candidate is non-empty and uploads-prefixed wins. -/
def firstUploads : List (List Char) → Option (List Char)
  | [] => none
  | t :: ts =>
    match extractFromToken t with
    | some c =>
      if !c.isEmpty && uploadsPat.isPrefixOf c then some c else firstUploads ts
    | none => firstUploads ts

/-- Second loop of the normalizer (transactions.py lines 75-78): the first
token with a non-empty extracted candidate. -/
def firstNonEmpty : List (List Char) → Option (List Char)
  | [] => none
  | t :: ts =>
    match extractFromToken t with
    | some c => if c.isEmpty then firstNonEmpty ts else some c
    | none => firstNonEmpty ts

/-- Embedding of _normalize_photo_path (transactions.py lines 18-80) over
character lists. -/
def normalizePhotoPathL (photo : Option (List Char)) : Option (List Char) :=
  match photo with
  | none => none
  | some p =>
    if p.isEmpty then none
    else
      let raw := pyStrip (p.map (fun c => if c = '\\' then '/' else c))
      let tokens := tokenize raw
      match firstUploads tokens with
      | some c => some c
      | none => firstNonEmpty tokens

/-- String-level _normalize_photo_path: the normalizer as called by the
transaction router. -/
def normalize_photo_path (photo : Option String) : Option String :=
  (normalizePhotoPathL (photo.map String.data)).map String.mk

/-! ## The Broadcast Hub (`src/ws_manager.py`)

Channels are modelled by their identity (a natural number); the transport is
abstracted by a failure oracle `fails : Nat → Bool` saying whether
`websocket.send_text` raises for that channel.  `broadcast` is instrumented:
besides the final manager state it returns the list of (channel, message)
deliveries that succeeded and the number of times the event was serialized
(`json.dumps` evaluations), so that the no-serialization and fan-out claims
are observable.  The `asyncio.gather` fan-out is modelled as a left fold over
the snapshot: each per-channel send is atomic with respect to the connection
list (the event loop interleaves whole `_send` bodies), touches only its own
channel, and failures are contained per channel. -/

/-- State of ConnectionManager: the ordered list of registered channels
(ws_manager.py line 18). -/
structure ConnectionManager where
  connections : List Nat
  deriving Repr, DecidableEq

/-- ConnectionManager.connect (ws_manager.py lines 20-23): register an
accepted channel by appending it. -/
def connect (m : ConnectionManager) (ws : Nat) : ConnectionManager :=
  ⟨m.connections ++ [ws]⟩

/-- ConnectionManager.disconnect (ws_manager.py lines 25-28): remove the
channel if present (first occurrence, as Python list.remove), else no-op. -/
def disconnect (m : ConnectionManager) (ws : Nat) : ConnectionManager :=
  if ws ∈ m.connections then ⟨m.connections.erase ws⟩ else m

/-- ConnectionManager.active_count (ws_manager.py lines 30-32). -/
def active_count (m : ConnectionManager) : Nat := m.connections.length

/-- json.dumps of the wire message with keys event, table, data
(ws_manager.py lines 57-61); the data payload is modelled pre-serialized. -/
def serializeEvent (event table data : String) : String :=
  "\x7b\"event\": \"" ++ event ++ "\", \"table\": \"" ++ table ++
    "\", \"data\": " ++ data ++ "\x7d"

/-- ConnectionManager._send (ws_manager.py lines 34-39): send to a single
client; on failure, disconnect it and swallow the error.  Returns the new
state and the successful delivery (channel, message), if any. -/
def sendOne (fails : Nat → Bool) (m : ConnectionManager) (ws : Nat)
    (message : String) : ConnectionManager × List (Nat × String) :=
  if fails ws then (disconnect m ws, []) else (m, [(ws, message)])

/-- One gather step of the broadcast fan-out: run `sendOne` on the next
channel of the snapshot and append its delivery to the log. -/
def broadcastStep (fails : Nat → Bool) (message : String)
    (acc : ConnectionManager × List (Nat × String)) (ws : Nat) :
    ConnectionManager × List (Nat × String) :=
  let r := sendOne fails acc.1 ws message
  (r.1, acc.2 ++ r.2)

/-- ConnectionManager.broadcast (ws_manager.py lines 41-66): return early if
no connections (no serialization), otherwise serialize once and attempt
delivery to every channel of a snapshot of the connection list.  Result:
(final state, successful deliveries in snapshot order, number of
serializations performed). -/
def broadcast (fails : Nat → Bool) (m : ConnectionManager)
    (event table data : String) :
    ConnectionManager × List (Nat × String) × Nat :=
  if m.connections.isEmpty then (m, [], 0)
  else
    let message := serializeEvent event table data
    let snapshot := m.connections
    let r := snapshot.foldl (broadcastStep fails message) (m, [])
    (r.1, r.2, 1)

/-! ## Transaction router effect traces (`src/routers/transactions.py`)

The create and delete handlers are embedded as functions from the request
data to either an HTTP error status or the ordered list of side effects the
success path performs.  The effect vocabulary includes the hand-off to the
broadcast hub so that its absence from every trace is a statement about the
code, not about the model. -/

/-- Observable side effects of a transaction-router handler, in program
order. -/
inductive RouterEffect where
  | mediaSave : String → RouterEffect
  | mediaDelete : String → RouterEffect
  | dbCommit : RouterEffect
  | hubBroadcast : String → String → RouterEffect
  deriving Repr, DecidableEq

/-- Is the effect a hand-off to the broadcast hub (manager.broadcast)? -/
def isHubBroadcast : RouterEffect → Bool
  | .hubBroadcast _ _ => true
  | _ => false

/-- Request data of POST /transactions/ (transactions.py lines 84-93):
identifiers are abstract; timestamp parsing is abstracted by whether one was
supplied and whether datetime.fromisoformat accepts it. -/
structure CreateTransactionRequest where
  user_id : Int
  stamp_type : Int
  hasTimestamp : Bool
  timestampValid : Bool
  photo : Option String
  deriving Repr, DecidableEq

/-- Effect trace of create_transaction (transactions.py lines 83-161):
validate stamp_type, parse the timestamp, save the photo if supplied, then
add and commit.  No hand-off to the broadcast hub occurs anywhere in the
handler. -/
def create_transaction (r : CreateTransactionRequest) :
    Except Nat (List RouterEffect) :=
  if ¬(r.stamp_type = 0 ∨ r.stamp_type = 1) then .error 400
  else if r.hasTimestamp && !r.timestampValid then .error 400
  else
    .ok ((match r.photo with
          | some name => [RouterEffect.mediaSave name]
          | none => []) ++ [RouterEffect.dbCommit])

/-- Effect trace of delete_transaction (transactions.py lines 305-334): 404
if the row is absent; otherwise attempt deletion of an existing photo file
(failures swallowed), then delete the row and commit.  No hand-off to the
broadcast hub occurs anywhere in the handler. -/
def delete_transaction (found : Bool) (photo : Option String)
    (photoOnDisk : Bool) : Except Nat (List RouterEffect) :=
  if ¬found then .error 404
  else
    .ok ((match photo with
          | some p => if photoOnDisk then [RouterEffect.mediaDelete p] else []
          | none => []) ++ [RouterEffect.dbCommit])

/-! ## Specification-level definitions

These follow the spec's words and are compared with the source embeddings. -/

/-- Specification wording of the token-resolution order (spec section 4.1):
the first token yielding a marker-prefixed candidate wins; otherwise the
first token with a non-empty candidate; otherwise none. -/
def resolution_spec (ts : List (List Char)) : Option (List Char) :=
  match ts.findSome? (fun t =>
      match extractFromToken t with
      | some c => if uploadsPat.isPrefixOf c then some c else none
      | none => none) with
  | some c => some c
  | none =>
    ts.findSome? (fun t =>
      match extractFromToken t with
      | some c => if c.isEmpty then none else some c
      | none => none)

/-- Does the normalizer result avoid a leading drive prefix?  Used to state
the amended idempotence claim. -/
def driveFreeResult : Option String → Bool
  | none => true
  | some r => !hasDrive r.data

/-! ## Lemmas about the broadcast hub -/

/-- The broadcast fold in closed form: final state is the fold of the
failure-triggered disconnects, and the delivery log collects exactly the
non-failing channels, in order. -/
theorem broadcast_fold_spec (fails : Nat → Bool) (msg : String) :
    ∀ (snapshot : List Nat) (m0 : ConnectionManager)
      (acc : List (Nat × String)),
      snapshot.foldl (broadcastStep fails msg) (m0, acc) =
        (snapshot.foldl
            (fun m ws => if fails ws then disconnect m ws else m) m0,
         acc ++ snapshot.filterMap
            (fun ws => if fails ws then none else some (ws, msg))) := by
  intro snapshot
  induction snapshot with
  | nil => intro m0 acc; simp
  | cons c cs ih =>
    intro m0 acc
    by_cases h : fails c
    · simp [broadcastStep, sendOne, h, ih]
    · simp [broadcastStep, sendOne, h, ih]

/-- Disconnect-folding skips channels that never fail. -/
theorem foldDisconnect_no_hit (fails : Nat → Bool) :
    ∀ (s : List Nat) (m0 : ConnectionManager),
      (∀ ws ∈ s, fails ws = false) →
      s.foldl (fun m ws => if fails ws then disconnect m ws else m) m0 = m0 := by
  intro s
  induction s with
  | nil => intro m0 _; rfl
  | cons a s' ih =>
    intro m0 h
    have ha : fails a = false := h a (List.mem_cons_self a s')
    simp only [List.foldl_cons, ha, if_neg Bool.false_ne_true]
    exact ih m0 (fun ws hws => h ws (List.mem_cons_of_mem a hws))

/-- With a single failing channel occurring once, the disconnect fold is one
disconnect of that channel. -/
theorem foldDisconnect_single (k : Nat) :
    ∀ (s : List Nat) (m0 : ConnectionManager), s.Nodup → k ∈ s →
      s.foldl
          (fun m ws => if (ws == k) = true then disconnect m ws else m) m0 =
        disconnect m0 k := by
  intro s
  induction s with
  | nil => intro m0 _ hk; cases hk
  | cons a s' ih =>
    intro m0 hnd hk
    rcases List.nodup_cons.mp hnd with ⟨hna, hnd'⟩
    by_cases hak : a = k
    · subst hak
      simp only [List.foldl_cons, beq_self_eq_true, if_pos rfl]
      exact foldDisconnect_no_hit _ s' (disconnect m0 a)
        (fun ws hws => by
          have : ws ≠ a := fun h => hna (h ▸ hws)
          simp [this])
    · have hk' : k ∈ s' := by
        rcases List.mem_cons.mp hk with h | h
        · exact absurd h.symm hak
        · exact h
      have : (a == k) = false := beq_false_of_ne hak
      simp only [List.foldl_cons, this, if_neg Bool.false_ne_true]
      exact ih m0 hnd' hk'

/-- Channels absent from the snapshot are all delivered to. -/
theorem filterMap_deliver_all (k : Nat) (msg : String) :
    ∀ s : List Nat, k ∉ s →
      s.filterMap
          (fun ws => if (ws == k) = true then none else some (ws, msg)) =
        s.map (fun ws => (ws, msg)) := by
  intro s
  induction s with
  | nil => intro _; rfl
  | cons a s' ih =>
    intro h
    have hak : a ≠ k := fun he => h (he ▸ List.mem_cons_self a s')
    have : (a == k) = false := beq_false_of_ne hak
    simp only [List.filterMap_cons, this, if_neg Bool.false_ne_true,
      List.map_cons, ih (fun hm => h (List.mem_cons_of_mem a hm))]

/-- With a single failing channel, deliveries are exactly the erase of that
channel, tagged with the message. -/
theorem filterMap_deliver_erase (k : Nat) (msg : String) :
    ∀ s : List Nat, s.Nodup →
      s.filterMap
          (fun ws => if (ws == k) = true then none else some (ws, msg)) =
        (s.erase k).map (fun ws => (ws, msg)) := by
  intro s
  induction s with
  | nil => intro _; rfl
  | cons a s' ih =>
    intro hnd
    rcases List.nodup_cons.mp hnd with ⟨hna, hnd'⟩
    by_cases hak : a = k
    · subst hak
      simp only [List.filterMap_cons, beq_self_eq_true, if_pos rfl,
        List.erase_cons_head]
      exact filterMap_deliver_all a msg s' hna
    · have hbeq : (a == k) = false := beq_false_of_ne hak
      have herase : (a :: s').erase k = a :: s'.erase k :=
        List.erase_cons_tail (by simp [hak])
      simp only [List.filterMap_cons, hbeq, if_neg Bool.false_ne_true,
        herase, List.map_cons, ih hnd']

/-- A nodup list filters to its erase when removing one element. -/
theorem nodup_filter_eq_erase (k : Nat) :
    ∀ s : List Nat, s.Nodup →
      s.filter (fun w => !(w == k)) = s.erase k := by
  intro s
  induction s with
  | nil => intro _; rfl
  | cons a s' ih =>
    intro hnd
    rcases List.nodup_cons.mp hnd with ⟨hna, hnd'⟩
    by_cases hak : a = k
    · subst hak
      simp only [List.filter_cons, beq_self_eq_true, Bool.not_true,
        List.erase_cons_head]
      have : ∀ w ∈ s', (!(w == a)) = true := fun w hw => by
        have : w ≠ a := fun h => hna (h ▸ hw)
        simp [this]
      rw [if_neg Bool.false_ne_true]
      exact List.filter_eq_self.mpr this
    · have hbeq : (a == k) = false := beq_false_of_ne hak
      have herase : (a :: s').erase k = a :: s'.erase k :=
        List.erase_cons_tail (by simp [hak])
      simp [List.filter_cons, hbeq, herase, ih hnd']

/-! ## Lemmas about the normalizer -/

/-- Characters surviving pyStrip are characters of the input. -/
theorem mem_pyStrip {x : Char} {t : List Char} (h : x ∈ pyStrip t) :
    x ∈ t := by
  unfold pyStrip at h
  rw [List.mem_reverse] at h
  have h1 := (List.dropWhile_sublist pySpace).subset h
  rw [List.mem_reverse] at h1
  exact (List.dropWhile_sublist pySpace).subset h1

/-- dropWhile keeps the list whole when no element matches its head test. -/
theorem dropWhile_of_all_false {p : Char → Bool} :
    ∀ {l : List Char}, (∀ c ∈ l, p c = false) → l.dropWhile p = l := by
  intro l h
  cases l with
  | nil => rfl
  | cons a l' =>
    have := h a (List.mem_cons_self a l')
    simp [List.dropWhile_cons, this]

/-- dropWhile of an all-matching list is empty. -/
theorem dropWhile_of_all_true {p : Char → Bool} :
    ∀ {l : List Char}, (∀ c ∈ l, p c = true) → l.dropWhile p = [] := by
  intro l
  induction l with
  | nil => intro _; rfl
  | cons a l' ih =>
    intro h
    have ha := h a (List.mem_cons_self a l')
    simp only [List.dropWhile_cons, ha, if_pos rfl]
    exact ih (fun c hc => h c (List.mem_cons_of_mem a hc))

/-- The head of a dropWhile result fails the test. -/
theorem dropWhile_head_false (p : Char → Bool) :
    ∀ {l : List Char} {d : Char} {ds : List Char},
      l.dropWhile p = d :: ds → p d = false := by
  intro l
  induction l with
  | nil => intro d ds h; cases h
  | cons a l' ih =>
    intro d ds h
    by_cases ha : p a
    · rw [List.dropWhile_cons, if_pos ha] at h
      exact ih h
    · rw [List.dropWhile_cons, if_neg ha] at h
      cases h
      exact Bool.of_not_eq_true ha

/-- Separator-free lists survive pyStrip unchanged. -/
theorem pyStrip_of_sepFree {t : List Char}
    (h : ∀ c ∈ t, isSep c = false) : pyStrip t = t := by
  have hsp : ∀ c ∈ t, pySpace c = false := by
    intro c hc
    have := h c hc
    unfold isSep at this
    cases hps : pySpace c
    · rfl
    · rw [hps] at this; simp at this
  unfold pyStrip
  rw [dropWhile_of_all_false hsp]
  rw [dropWhile_of_all_false (fun c hc => hsp c (List.mem_reverse.mp hc))]
  exact List.reverse_reverse t

/-- Tokens produced by splitAux are non-empty, separator-free, and their
characters come from the input or the accumulator. -/
theorem splitAux_mem :
    ∀ (s acc : List Char), (∀ c ∈ acc, isSep c = false) →
      ∀ t ∈ splitAux s acc,
        t ≠ [] ∧ ∀ c ∈ t, isSep c = false ∧ (c ∈ acc ∨ c ∈ s) := by
  intro s
  induction s with
  | nil =>
    intro acc hacc t ht
    unfold splitAux at ht
    by_cases he : acc.isEmpty
    · rw [if_pos he] at ht; cases ht
    · rw [if_neg he] at ht
      rcases List.mem_singleton.mp ht with rfl
      refine ⟨?_, ?_⟩
      · intro hrev
        exact he (by simpa [List.isEmpty_iff] using
          (List.reverse_eq_nil_iff.mp hrev))
      · intro c hc
        rw [List.mem_reverse] at hc
        exact ⟨hacc c hc, Or.inl hc⟩
  | cons a s' ih =>
    intro acc hacc t ht
    unfold splitAux at ht
    by_cases hsep : isSep a
    · rw [if_pos hsep] at ht
      by_cases he : acc.isEmpty
      · rw [if_pos he] at ht
        have := ih [] (by intro c hc; cases hc) t ht
        exact ⟨this.1, fun c hc =>
          ⟨(this.2 c hc).1, Or.inr (List.mem_cons_of_mem a
            ((this.2 c hc).2.resolve_left (fun h => by cases h)))⟩⟩
      · rw [if_neg he] at ht
        rcases List.mem_cons.mp ht with rfl | ht'
        · refine ⟨?_, ?_⟩
          · intro hrev
            exact he (by simpa [List.isEmpty_iff] using
              (List.reverse_eq_nil_iff.mp hrev))
          · intro c hc
            rw [List.mem_reverse] at hc
            exact ⟨hacc c hc, Or.inl hc⟩
        · have := ih [] (by intro c hc; cases hc) t ht'
          exact ⟨this.1, fun c hc =>
            ⟨(this.2 c hc).1, Or.inr (List.mem_cons_of_mem a
              ((this.2 c hc).2.resolve_left (fun h => by cases h)))⟩⟩
    · rw [if_neg hsep] at ht
      have hacc' : ∀ c ∈ a :: acc, isSep c = false := by
        intro c hc
        rcases List.mem_cons.mp hc with rfl | hc'
        · exact Bool.of_not_eq_true hsep
        · exact hacc c hc'
      have := ih (a :: acc) hacc' t ht
      refine ⟨this.1, fun c hc => ⟨(this.2 c hc).1, ?_⟩⟩
      rcases (this.2 c hc).2 with hin | hin
      · rcases List.mem_cons.mp hin with rfl | hin'
        · exact Or.inr (List.mem_cons_self c s')
        · exact Or.inl hin'
      · exact Or.inr (List.mem_cons_of_mem a hin)

/-- Tokens of the normalizer are non-empty, separator-free, and made of
input characters. -/
theorem tokenize_mem {s : List Char} {t : List Char} (ht : t ∈ tokenize s) :
    t ≠ [] ∧ ∀ c ∈ t, isSep c = false ∧ c ∈ s := by
  have := splitAux_mem s [] (by intro c hc; cases hc) t ht
  exact ⟨this.1, fun c hc =>
    ⟨(this.2 c hc).1, ((this.2 c hc).2).resolve_left (fun h => by cases h)⟩⟩

/-- A non-empty separator-free list tokenizes to itself alone. -/
theorem splitAux_single :
    ∀ (s acc : List Char), (∀ c ∈ s, isSep c = false) →
      (acc = [] → s ≠ []) → splitAux s acc = [acc.reverse ++ s] := by
  intro s
  induction s with
  | nil =>
    intro acc _ hne
    have : ¬acc.isEmpty := by
      intro h
      exact hne (List.isEmpty_iff.mp h) rfl
    unfold splitAux
    rw [if_neg this, List.append_nil]
  | cons a s' ih =>
    intro acc hs _
    have ha : isSep a = false := hs a (List.mem_cons_self a s')
    unfold splitAux
    rw [if_neg (by simp [ha])]
    rw [ih (a :: acc) (fun c hc => hs c (List.mem_cons_of_mem a hc))
      (by intro h; cases h)]
    simp

/-- tokenize on a single clean token. -/
theorem tokenize_single {t : List Char} (hne : t ≠ [])
    (hsf : ∀ c ∈ t, isSep c = false) : tokenize t = [t] := by
  unfold tokenize
  rw [splitAux_single t [] hsf (fun _ => hne)]
  rfl

/-- A successful substrFrom yields a suffix starting with the pattern. -/
theorem substrFrom_some {pat : List Char} :
    ∀ {l s : List Char}, substrFrom pat l = some s →
      pat.isPrefixOf s = true ∧ ∃ pre, l = pre ++ s := by
  intro l
  induction l with
  | nil =>
    intro s h
    unfold substrFrom at h
    by_cases hp : pat.isPrefixOf ([] : List Char)
    · rw [if_pos hp] at h
      cases h
      exact ⟨hp, ⟨[], rfl⟩⟩
    · rw [if_neg hp] at h; cases h
  | cons c cs ih =>
    intro s h
    unfold substrFrom at h
    by_cases hp : pat.isPrefixOf (c :: cs)
    · rw [if_pos hp] at h
      cases h
      exact ⟨hp, ⟨[], rfl⟩⟩
    · rw [if_neg hp] at h
      rcases ih h with ⟨hpre, pre, hl⟩
      exact ⟨hpre, ⟨c :: pre, by rw [hl]; rfl⟩⟩

/-- substrFrom finds a pattern sitting at the very start. -/
theorem substrFrom_prefix_self {pat l : List Char}
    (h : pat.isPrefixOf l = true) : substrFrom pat l = some l := by
  cases l with
  | nil => unfold substrFrom; rw [if_pos h]
  | cons c cs => unfold substrFrom; rw [if_pos h]

/-- A failed substrFrom means the pattern is not at the start. -/
theorem substrFrom_none_no_match {pat l : List Char}
    (h : substrFrom pat l = none) : pat.isPrefixOf l = false := by
  cases hp : pat.isPrefixOf l
  · rfl
  · rw [substrFrom_prefix_self hp] at h; cases h

/-- The uploads marker is not a prefix of the empty token. -/
theorem uploadsPat_not_prefix_nil : uploadsPat.isPrefixOf ([] : List Char) = false := rfl

/-- Lists with the uploads marker as a prefix are non-empty. -/
theorem ne_nil_of_uploads_prefix {s : List Char}
    (h : uploadsPat.isPrefixOf s = true) : s ≠ [] := by
  intro he
  subst he
  rw [uploadsPat_not_prefix_nil] at h
  cases h

/-- Characters of a stripDrive result come from the input. -/
theorem mem_stripDrive {x : Char} {t : List Char}
    (h : x ∈ stripDrive t) : x ∈ t := by
  cases t with
  | nil => exact h
  | cons c t' =>
    cases t' with
    | nil => exact h
    | cons d rest =>
      simp only [stripDrive] at h
      by_cases hd : (c.isAlpha && d == ':') = true
      · rw [if_pos hd] at h
        exact List.mem_cons_of_mem c (List.mem_cons_of_mem d h)
      · rw [if_neg hd] at h
        exact h

/-- stripDrive is the identity on drive-free tokens. -/
theorem stripDrive_of_not_drive {t : List Char}
    (h : hasDrive t = false) : stripDrive t = t := by
  cases t with
  | nil => rfl
  | cons c t' =>
    cases t' with
    | nil => rfl
    | cons d rest =>
      simp only [hasDrive] at h
      simp only [stripDrive]
      rw [if_neg (by rw [h]; exact Bool.false_ne_true)]

/-- The well-formedness a normalizer result enjoys: non-empty; free of
separators and backslashes; and either an http(s) URL, or marker-prefixed,
or marker-free with no leading slash. -/
def ResultOK (r : List Char) : Prop :=
  r ≠ [] ∧ (∀ x ∈ r, isSep x = false ∧ x ≠ '\\') ∧
    (isHttpTok r = true ∨ uploadsPat.isPrefixOf r = true ∨
      (substrFrom uploadsPat r = none ∧
        ∀ d ds, r = d :: ds → (d == '/') = false))

/-- Candidates produced by the token extractor: they are made of token
characters, are non-empty, and satisfy the ResultOK alternatives. -/
theorem extractFromToken_range {t c : List Char}
    (h : extractFromToken t = some c) :
    (∀ x ∈ c, x ∈ t) ∧ c ≠ [] ∧
      (isHttpTok c = true ∨ uploadsPat.isPrefixOf c = true ∨
        (substrFrom uploadsPat c = none ∧
          ∀ d ds, c = d :: ds → (d == '/') = false)) := by
  unfold extractFromToken at h
  simp only [] at h
  by_cases he : (pyStrip t).isEmpty
  · rw [if_pos he] at h; cases h
  · rw [if_neg he] at h
    by_cases hh : isHttpTok (pyStrip t)
    · rw [if_pos hh] at h
      cases h
      exact ⟨fun x hx => mem_pyStrip hx,
        fun hnil => he (by rw [hnil]; rfl), Or.inl hh⟩
    · rw [if_neg hh] at h
      have hmem3 : ∀ x ∈ (stripDrive (pyStrip t)).dropWhile
          (fun c => c == '/'), x ∈ t := fun x hx =>
        mem_pyStrip (mem_stripDrive
          ((List.dropWhile_sublist _).subset hx))
      rcases hsub : substrFrom uploadsPat
          ((stripDrive (pyStrip t)).dropWhile (fun c => c == '/')) with
        _ | s
      · rw [hsub] at h
        have hpre := substrFrom_none_no_match hsub
        rw [hpre] at h
        rw [if_neg Bool.false_ne_true] at h
        by_cases h3 : ((stripDrive (pyStrip t)).dropWhile
            (fun c => c == '/')).isEmpty
        · rw [if_pos h3] at h; cases h
        · rw [if_neg h3] at h
          cases h
          refine ⟨hmem3, fun hnil => h3 (by rw [hnil]; rfl),
            Or.inr (Or.inr ⟨hsub, ?_⟩)⟩
          intro d ds hds
          exact dropWhile_head_false (fun c => c == '/') hds
      · rw [hsub] at h
        cases h
        rcases substrFrom_some hsub with ⟨hpre, pre, hsplit⟩
        refine ⟨?_, ne_nil_of_uploads_prefix hpre, Or.inr (Or.inl hpre)⟩
        intro x hx
        apply hmem3
        rw [hsplit]
        exact List.mem_append_right pre hx

/-- A firstUploads hit is the extraction of some token of the scan. -/
theorem firstUploads_mem :
    ∀ {ts : List (List Char)} {c : List Char}, firstUploads ts = some c →
      ∃ t ∈ ts, extractFromToken t = some c := by
  intro ts
  induction ts with
  | nil => intro c h; cases h
  | cons t ts' ih =>
    intro c h
    unfold firstUploads at h
    cases hx : extractFromToken t with
    | none =>
      rw [hx] at h
      rcases ih h with ⟨u, hu, he⟩
      exact ⟨u, List.mem_cons_of_mem t hu, he⟩
    | some c' =>
      rw [hx] at h
      simp only [] at h
      by_cases hc : (!c'.isEmpty && uploadsPat.isPrefixOf c') = true
      · rw [if_pos hc] at h
        cases h
        exact ⟨t, List.mem_cons_self t ts', hx⟩
      · rw [if_neg hc] at h
        rcases ih h with ⟨u, hu, he⟩
        exact ⟨u, List.mem_cons_of_mem t hu, he⟩

/-- A firstNonEmpty hit is the extraction of some token of the scan. -/
theorem firstNonEmpty_mem :
    ∀ {ts : List (List Char)} {c : List Char}, firstNonEmpty ts = some c →
      ∃ t ∈ ts, extractFromToken t = some c := by
  intro ts
  induction ts with
  | nil => intro c h; cases h
  | cons t ts' ih =>
    intro c h
    unfold firstNonEmpty at h
    cases hx : extractFromToken t with
    | none =>
      rw [hx] at h
      rcases ih h with ⟨u, hu, he⟩
      exact ⟨u, List.mem_cons_of_mem t hu, he⟩
    | some c' =>
      rw [hx] at h
      simp only [] at h
      by_cases hc : c'.isEmpty = true
      · rw [if_pos hc] at h
        rcases ih h with ⟨u, hu, he⟩
        exact ⟨u, List.mem_cons_of_mem t hu, he⟩
      · rw [if_neg hc] at h
        cases h
        exact ⟨t, List.mem_cons_self t ts', hx⟩

/-- Backslash replacement never leaves a backslash behind. -/
theorem mem_mapSlash_no_backslash {p : List Char} {x : Char}
    (hx : x ∈ p.map (fun c => if c = '\\' then '/' else c)) : x ≠ '\\' := by
  rcases List.mem_map.mp hx with ⟨c, _, hc⟩
  by_cases hb : c = '\\'
  · rw [if_pos hb] at hc
    rw [← hc]
    decide
  · rw [if_neg hb] at hc
    rw [← hc]
    exact hb

/-- Backslash replacement is the identity on backslash-free lists. -/
theorem mapSlash_id {r : List Char} (h : ∀ x ∈ r, x ≠ '\\') :
    r.map (fun c => if c = '\\' then '/' else c) = r := by
  induction r with
  | nil => rfl
  | cons a r' ih =>
    have ha : a ≠ '\\' := h a (List.mem_cons_self a r')
    simp only [List.map_cons, if_neg ha]
    rw [ih (fun x hx => h x (List.mem_cons_of_mem a hx))]

/-- Range of the normalizer: any returned reference is non-empty, free of
separators and backslashes, and is an http(s) URL, or marker-prefixed, or
marker-free with no leading slash. -/
theorem normalize_range {p r : List Char}
    (h : normalizePhotoPathL (some p) = some r) : ResultOK r := by
  unfold normalizePhotoPathL at h
  simp only [] at h
  by_cases he : p.isEmpty
  · rw [if_pos he] at h; cases h
  · rw [if_neg he] at h
    have hex : ∃ t ∈ tokenize (pyStrip
        (p.map (fun c => if c = '\\' then '/' else c))),
        extractFromToken t = some r := by
      cases hfu : firstUploads (tokenize (pyStrip
          (p.map (fun c => if c = '\\' then '/' else c)))) with
      | some c =>
        rw [hfu] at h
        cases h
        exact firstUploads_mem hfu
      | none =>
        rw [hfu] at h
        exact firstNonEmpty_mem h
    rcases hex with ⟨t, ht, hextr⟩
    have htok := tokenize_mem ht
    have hrange := extractFromToken_range hextr
    refine ⟨hrange.2.1, ?_, hrange.2.2⟩
    intro x hx
    have hxt : x ∈ t := hrange.1 x hx
    have hsep := (htok.2 x hxt).1
    have hraw : x ∈ pyStrip (p.map (fun c => if c = '\\' then '/' else c)) :=
      (htok.2 x hxt).2
    exact ⟨hsep, mem_mapSlash_no_backslash (mem_pyStrip hraw)⟩

/-- dropWhile keeps a list whose head fails the test. -/
theorem dropWhile_cons_of_neg {p : Char → Bool} {a : Char} {l : List Char}
    (h : p a = false) : (a :: l).dropWhile p = a :: l := by
  rw [List.dropWhile_cons, if_neg (by rw [h]; exact Bool.false_ne_true)]

/-- The uploads marker starts with the letter u. -/
theorem uploads_prefix_head {d : Char} {ds : List Char}
    (h : uploadsPat.isPrefixOf (d :: ds) = true) : d = 'u' := by
  have hu : uploadsPat = 'u' :: "ploads/".data := rfl
  rw [hu] at h
  simp only [List.isPrefixOf, Bool.and_eq_true] at h
  exact (eq_of_beq h.1).symm

/-- Fixpoint of the extractor: a candidate satisfying the alternatives of
ResultOK and free of a drive prefix extracts to itself. -/
theorem extractFromToken_fixpoint {r : List Char} (hok : ResultOK r)
    (hdrive : hasDrive r = false) : extractFromToken r = some r := by
  rcases hok with ⟨hne, hchars, halt⟩
  have hsf : ∀ c ∈ r, isSep c = false := fun c hc => (hchars c hc).1
  have hstrip : pyStrip r = r := pyStrip_of_sepFree hsf
  have hnemp : r.isEmpty = false := by
    cases r with
    | nil => exact absurd rfl hne
    | cons a l => rfl
  unfold extractFromToken
  simp only []
  rw [hstrip, hnemp]
  rw [if_neg Bool.false_ne_true]
  by_cases hhttp : isHttpTok r = true
  · rw [if_pos hhttp]
  · rw [if_neg hhttp]
    rw [stripDrive_of_not_drive hdrive]
    have hslash : r.dropWhile (fun c => c == '/') = r := by
      rcases halt with h | h | h
      · exact absurd h hhttp
      · cases hr : r with
        | nil => rfl
        | cons d ds =>
          rw [hr] at h
          have hd : d = 'u' := uploads_prefix_head h
          exact dropWhile_cons_of_neg (by rw [hd]; rfl)
      · cases hr : r with
        | nil => rfl
        | cons d ds =>
          exact dropWhile_cons_of_neg (h.2 d ds hr)
    rw [hslash]
    rcases halt with h | h | h
    · exact absurd h hhttp
    · rw [substrFrom_prefix_self h]
    · rw [h.1]
      simp only []
      rw [substrFrom_none_no_match h.1]
      rw [if_neg Bool.false_ne_true, hnemp]
      rw [if_neg Bool.false_ne_true]

/-! ## Claims about the hub and the router -/

/-- Claim C3: with N registered (distinct) channels of which exactly one
fails on write, broadcast still delivers the serialized event to the other
N-1 channels in order, deregisters the failing channel, and leaves exactly
N-1 channels registered.  The model function is total, so broadcast never
raises to its caller. -/
theorem C3_broadcast_one_failure (L : List Nat) (k : Nat)
    (e t d : String) (hnd : L.Nodup) (hk : k ∈ L) :
    (broadcast (fun w => w == k) ⟨L⟩ e t d).1.connections = L.erase k ∧
    active_count (broadcast (fun w => w == k) ⟨L⟩ e t d).1 = L.length - 1 ∧
    (broadcast (fun w => w == k) ⟨L⟩ e t d).2.1 =
      (L.erase k).map (fun w => (w, serializeEvent e t d)) := by
  have hne : L.isEmpty = false := by
    cases L with
    | nil => cases hk
    | cons a l => rfl
  have hfold := broadcast_fold_spec (fun w => w == k) (serializeEvent e t d)
      L ⟨L⟩ []
  have hstate := foldDisconnect_single k L ⟨L⟩ hnd hk
  have hdeliv := filterMap_deliver_erase k (serializeEvent e t d) L hnd
  have hbr : broadcast (fun w => w == k) ⟨L⟩ e t d =
      (disconnect ⟨L⟩ k,
       (L.erase k).map (fun w => (w, serializeEvent e t d)), 1) := by
    simp only [broadcast, hne, Bool.false_eq_true, if_neg Bool.false_ne_true]
    rw [hfold, hstate, hdeliv]
    simp
  rw [hbr]
  refine ⟨?_, ?_, rfl⟩
  · simp [disconnect, hk]
  · simp [disconnect, hk, active_count, List.length_erase_of_mem hk]

/-- Witness for C3 at a concrete state: three channels, channel 2 fails. -/
theorem C3_broadcast_one_failure_witness :
    (broadcast (fun w => w == 2) ⟨[1, 2, 3]⟩ "INSERT" "transactions"
        "\x7b\"id\": 7\x7d").1.connections = [1, 3] ∧
    active_count (broadcast (fun w => w == 2) ⟨[1, 2, 3]⟩ "INSERT"
        "transactions" "\x7b\"id\": 7\x7d").1 = 2 ∧
    (broadcast (fun w => w == 2) ⟨[1, 2, 3]⟩ "INSERT" "transactions"
        "\x7b\"id\": 7\x7d").2.1 =
      [1, 3].map (fun w =>
        (w, serializeEvent "INSERT" "transactions" "\x7b\"id\": 7\x7d")) := by
  have h := C3_broadcast_one_failure [1, 2, 3] 2 "INSERT" "transactions"
    "\x7b\"id\": 7\x7d" (by decide) (by decide)
  simpa using h

/-- Claim C8: with zero registered channels, broadcast returns its state
unchanged, delivers nothing, and performs no serialization (instrumented
serialization count 0). -/
theorem C8_broadcast_empty (fails : Nat → Bool) (e t d : String) :
    broadcast fails ⟨[]⟩ e t d = (⟨[]⟩, [], 0) := rfl

/-- Claim C9: deregistration is idempotent: removing an absent channel
(never registered or already deregistered) is a no-op that does not raise,
and removing a registered channel removes exactly that channel, after which
a second deregistration is a no-op. -/
theorem C9_disconnect_idempotent (L : List Nat) (ws : Nat) :
    (ws ∉ L → disconnect ⟨L⟩ ws = ⟨L⟩) ∧
    (L.Nodup → ws ∈ L →
      (disconnect ⟨L⟩ ws).connections = L.filter (fun w => !(w == ws)) ∧
      disconnect (disconnect ⟨L⟩ ws) ws = disconnect ⟨L⟩ ws) := by
  constructor
  · intro h
    simp [disconnect, h]
  · intro hnd hmem
    have hfe := nodup_filter_eq_erase ws L hnd
    have hconn : (disconnect ⟨L⟩ ws).connections = L.erase ws := by
      simp [disconnect, hmem]
    refine ⟨by rw [hconn, hfe], ?_⟩
    have hnotmem : ws ∉ L.erase ws := by
      intro hin
      rw [← hfe] at hin
      have := List.of_mem_filter hin
      simp at this
    show disconnect (disconnect ⟨L⟩ ws) ws = disconnect ⟨L⟩ ws
    have h1 : disconnect ⟨L⟩ ws = ⟨L.erase ws⟩ := by
      simp [disconnect, hmem]
    rw [h1]
    simp [disconnect, hnotmem]

/-- Witness for C9: deregistering channel 2 from [1, 2], twice, and
deregistering never-registered channel 5. -/
theorem C9_disconnect_idempotent_witness :
    disconnect ⟨[1, 2]⟩ 5 = ⟨[1, 2]⟩ ∧
    (disconnect ⟨[1, 2]⟩ 2).connections =
      [1, 2].filter (fun w => !(w == 2)) ∧
    disconnect (disconnect ⟨[1, 2]⟩ 2) 2 = disconnect ⟨[1, 2]⟩ 2 := by
  refine ⟨(C9_disconnect_idempotent [1, 2] 5).1 (by decide), ?_, ?_⟩
  · exact ((C9_disconnect_idempotent [1, 2] 2).2 (by decide) (by decide)).1
  · exact ((C9_disconnect_idempotent [1, 2] 2).2 (by decide) (by decide)).2

/-- Claim C10: a broadcast in which every per-channel delivery succeeds
leaves the registered-channel list exactly unchanged, and delivers to every
channel; the connection list is only mutated through disconnect in the
failure branch. -/
theorem C10_broadcast_frame (L : List Nat) (fails : Nat → Bool)
    (e t d : String) (h : ∀ ws ∈ L, fails ws = false) :
    (broadcast fails ⟨L⟩ e t d).1 = ⟨L⟩ ∧
    (broadcast fails ⟨L⟩ e t d).2.1 =
      L.map (fun w => (w, serializeEvent e t d)) := by
  cases hL : L with
  | nil => exact ⟨rfl, rfl⟩
  | cons a l =>
    rw [← hL]
    have hne : L.isEmpty = false := by rw [hL]; rfl
    have hfold := broadcast_fold_spec fails (serializeEvent e t d) L ⟨L⟩ []
    have hstate := foldDisconnect_no_hit fails L ⟨L⟩ h
    have hdeliv : L.filterMap
        (fun ws => if fails ws then none
                   else some (ws, serializeEvent e t d)) =
        L.map (fun w => (w, serializeEvent e t d)) := by
      clear hfold hstate hne hL
      induction L with
      | nil => rfl
      | cons b l ih =>
        have hb : fails b = false := h b (List.mem_cons_self b l)
        simp only [List.filterMap_cons, hb, if_neg Bool.false_ne_true,
          List.map_cons]
        rw [ih (fun ws hws => h ws (List.mem_cons_of_mem b hws))]
    have hbr : broadcast fails ⟨L⟩ e t d =
        (⟨L⟩, L.map (fun w => (w, serializeEvent e t d)), 1) := by
      simp only [broadcast, hne, Bool.false_eq_true, if_neg Bool.false_ne_true]
      rw [hfold, hstate, hdeliv]
      simp
    rw [hbr]
    exact ⟨rfl, rfl⟩

/-- Witness for C10: two channels, none failing. -/
theorem C10_broadcast_frame_witness :
    (broadcast (fun _ => false) ⟨[4, 9]⟩ "UPDATE" "transactions" "1").1 =
      ⟨[4, 9]⟩ ∧
    (broadcast (fun _ => false) ⟨[4, 9]⟩ "UPDATE" "transactions" "1").2.1 =
      [4, 9].map (fun w => (w, serializeEvent "UPDATE" "transactions" "1")) :=
  C10_broadcast_frame [4, 9] (fun _ => false) "UPDATE" "transactions" "1"
    (fun _ _ => rfl)

/-- Claim C1 (divergence witness): every successful commit path of the
transaction router performs exactly one database commit and hands zero
events to the broadcast hub — manager.broadcast is never invoked by
create_transaction or delete_transaction, contradicting the claimed
exactly-one notification per successful commit. -/
theorem C1_router_never_reaches_hub :
    (∀ r l, create_transaction r = Except.ok l →
      l.count RouterEffect.dbCommit = 1 ∧ l.filter isHubBroadcast = []) ∧
    (∀ (found : Bool) (photo : Option String) (onDisk : Bool) l,
      delete_transaction found photo onDisk = Except.ok l →
      l.count RouterEffect.dbCommit = 1 ∧ l.filter isHubBroadcast = []) := by
  constructor
  · intro r l hok
    unfold create_transaction at hok
    split at hok
    · cases hok
    · split at hok
      · cases hok
      · cases hok
        cases r.photo with
        | none => exact ⟨rfl, rfl⟩
        | some name => exact ⟨rfl, rfl⟩
  · intro found photo onDisk l hok
    unfold delete_transaction at hok
    split at hok
    · cases hok
    · cases hok
      cases photo with
      | none => exact ⟨rfl, rfl⟩
      | some p =>
        by_cases hd : onDisk
        · simp only [hd, if_pos] at *
          exact ⟨rfl, rfl⟩
        · simp only [hd] at *
          exact ⟨rfl, rfl⟩

/-- Witness for C1's divergence theorem: a concrete valid create request
(user 1, check-in, no photo) whose successful trace commits once and never
reaches the hub. -/
theorem C1_router_never_reaches_hub_witness :
    [RouterEffect.dbCommit].count RouterEffect.dbCommit = 1 ∧
    [RouterEffect.dbCommit].filter isHubBroadcast = [] :=
  C1_router_never_reaches_hub.1 ⟨1, 0, false, true, none⟩
    [RouterEffect.dbCommit] rfl

/-! ## Claims about the normalizer -/

/-- The first scan loop over a single clean token. -/
theorem firstUploads_singleton {r : List Char}
    (hfix : extractFromToken r = some r) :
    firstUploads [r] =
      if !r.isEmpty && uploadsPat.isPrefixOf r then some r else none := by
  unfold firstUploads
  rw [hfix]
  simp only []
  by_cases h : (!r.isEmpty && uploadsPat.isPrefixOf r) = true
  · rw [if_pos h, if_pos h]
  · rw [if_neg h, if_neg h]
    rfl

/-- The fallback scan loop over a single clean token. -/
theorem firstNonEmpty_singleton {r : List Char}
    (hfix : extractFromToken r = some r) (hne : r.isEmpty = false) :
    firstNonEmpty [r] = some r := by
  unfold firstNonEmpty
  rw [hfix]
  simp only []
  rw [hne]
  rw [if_neg Bool.false_ne_true]

/-- A ResultOK value free of a drive prefix is a fixpoint of the whole
normalizer. -/
theorem normalizePhotoPathL_fixpoint {r : List Char} (hok : ResultOK r)
    (hdrive : hasDrive r = false) :
    normalizePhotoPathL (some r) = some r := by
  have hfix := extractFromToken_fixpoint hok hdrive
  rcases hok with ⟨hne, hchars, _⟩
  have hnb : ∀ x ∈ r, x ≠ '\\' := fun x hx => (hchars x hx).2
  have hsf : ∀ x ∈ r, isSep x = false := fun x hx => (hchars x hx).1
  have hnemp : r.isEmpty = false := by
    cases r with
    | nil => exact absurd rfl hne
    | cons a l => rfl
  unfold normalizePhotoPathL
  simp only []
  rw [hnemp]
  rw [if_neg Bool.false_ne_true]
  rw [mapSlash_id hnb, pyStrip_of_sepFree hsf, tokenize_single hne hsf]
  rw [firstUploads_singleton hfix]
  by_cases hpre : uploadsPat.isPrefixOf r = true
  · rw [if_pos (by rw [hnemp, hpre]; rfl)]
  · have hcond : (!r.isEmpty && uploadsPat.isPrefixOf r) = false := by
      rw [Bool.not_eq_true] at hpre
      rw [hpre, Bool.and_false]
    rw [hcond]
    rw [if_neg Bool.false_ne_true]
    simp only []
    exact firstNonEmpty_singleton hfix hnemp

/-- Claim C6 amended: the normalizer is idempotent on every input whose
result does not begin with a single-letter-plus-colon drive prefix (the
drive-stripping step can re-expose such a prefix, so those results are not
fixpoints). -/
theorem C6_idempotent_unless_drive (x : Option String)
    (h : driveFreeResult (normalize_photo_path x) = true) :
    normalize_photo_path (normalize_photo_path x) = normalize_photo_path x := by
  cases x with
  | none => rfl
  | some p =>
    cases hL : normalizePhotoPathL (some p.data) with
    | none =>
      have h1 : normalize_photo_path (some p) = none := by
        show (normalizePhotoPathL (some p.data)).map String.mk = none
        rw [hL]
        rfl
      rw [h1]
      rfl
    | some r =>
      have h1 : normalize_photo_path (some p) = some (String.mk r) := by
        show (normalizePhotoPathL (some p.data)).map String.mk =
          some (String.mk r)
        rw [hL]
        rfl
      rw [h1]
      rw [h1] at h
      have hdrive : hasDrive r = false := by
        simp only [driveFreeResult] at h
        cases hd : hasDrive r
        · rfl
        · rw [hd] at h
          exact absurd h (by decide)
      have hok : ResultOK r := normalize_range hL
      have hL2 : normalizePhotoPathL (some r) = some r :=
        normalizePhotoPathL_fixpoint hok hdrive
      show (normalizePhotoPathL (some (String.mk r).data)).map String.mk =
        some (String.mk r)
      rw [show (String.mk r).data = r from rfl, hL2]
      rfl

/-- Counterexample to Claim C6 as stated: on the input C-colon-D-colon-a the
drive stripping applies once per pass, so a second normalization changes the
result. -/
theorem C6_counterexample :
    normalize_photo_path (normalize_photo_path (some "C:D:a")) ≠
      normalize_photo_path (some "C:D:a") := by decide

/-- Witness for the amended C6 on a drive-free result. -/
theorem C6_idempotent_unless_drive_witness :
    normalize_photo_path (normalize_photo_path (some "uploads/a.jpg")) =
      normalize_photo_path (some "uploads/a.jpg") :=
  C6_idempotent_unless_drive (some "uploads/a.jpg") (by decide)

/-- Claim C4: the normalizer is total: null maps to null, empty or
whitespace-only strings map to null, and any other string yields either a
non-empty reference string or null — the model is a total function, so it
never raises. -/
theorem C4_normalizer_total :
    normalize_photo_path none = none ∧
    (∀ s : String, (∀ c ∈ s.data, pySpace c = true) →
      normalize_photo_path (some s) = none) ∧
    (∀ (s r : String), normalize_photo_path (some s) = some r → r ≠ "") := by
  refine ⟨rfl, ?_, ?_⟩
  · intro s hs
    show (normalizePhotoPathL (some s.data)).map String.mk = none
    by_cases hne : s.data.isEmpty = true
    · have hd : s.data = [] := by
        cases hd0 : s.data
        · rfl
        · rw [hd0] at hne; cases hne
      rw [hd]
      rfl
    · have hall : ∀ c ∈ s.data.map (fun c => if c = '\\' then '/' else c),
          pySpace c = true := by
        intro c hc
        rcases List.mem_map.mp hc with ⟨b, hb, hbc⟩
        have hps := hs b hb
        have hbns : b ≠ '\\' := by
          intro hbe
          rw [hbe] at hps
          cases hps
        rw [if_neg hbns] at hbc
        rw [← hbc]
        exact hps
      have hstrip :
          pyStrip (s.data.map (fun c => if c = '\\' then '/' else c)) = [] := by
        unfold pyStrip
        rw [dropWhile_of_all_true hall]
        rfl
      have hmain : normalizePhotoPathL (some s.data) = none := by
        unfold normalizePhotoPathL
        simp only []
        rw [Bool.not_eq_true] at hne
        rw [hne]
        rw [if_neg Bool.false_ne_true]
        rw [hstrip]
        rfl
      rw [hmain]
      rfl
  · intro s r h
    have h' : (normalizePhotoPathL (some s.data)).map String.mk = some r := h
    cases hL : normalizePhotoPathL (some s.data) with
    | none => rw [hL] at h'; cases h'
    | some rl =>
      rw [hL] at h'
      have hok := normalize_range hL
      have : r = String.mk rl := by
        cases h'
        rfl
      rw [this]
      intro he
      exact hok.1 (congrArg String.data he)

/-- Witness for C4: a whitespace-only input maps to null. -/
theorem C4_normalizer_total_witness :
    normalize_photo_path (some " \t ") = none :=
  C4_normalizer_total.2.1 " \t " (by decide)

/-- The first scan loop is the first marker-prefixed candidate in token
order. -/
theorem firstUploads_eq_findSome :
    ∀ ts : List (List Char), firstUploads ts =
      ts.findSome? (fun t =>
        match extractFromToken t with
        | some c => if uploadsPat.isPrefixOf c then some c else none
        | none => none) := by
  intro ts
  induction ts with
  | nil => rfl
  | cons t ts' ih =>
    rw [List.findSome?_cons]
    unfold firstUploads
    cases hx : extractFromToken t with
    | none =>
      simp only []
      exact ih
    | some c =>
      simp only []
      cases c with
      | nil =>
        rw [show ((!([] : List Char).isEmpty) &&
          uploadsPat.isPrefixOf []) = false from rfl]
        rw [if_neg Bool.false_ne_true]
        rw [show uploadsPat.isPrefixOf ([] : List Char) = false from rfl]
        rw [if_neg Bool.false_ne_true]
        exact ih
      | cons d ds =>
        rw [show (!(d :: ds).isEmpty) = true from rfl, Bool.true_and]
        by_cases hp : uploadsPat.isPrefixOf (d :: ds) = true
        · rw [if_pos hp, if_pos hp]
        · rw [if_neg hp, if_neg hp]
          exact ih

/-- The fallback scan loop is the first non-empty candidate in token
order. -/
theorem firstNonEmpty_eq_findSome :
    ∀ ts : List (List Char), firstNonEmpty ts =
      ts.findSome? (fun t =>
        match extractFromToken t with
        | some c => if c.isEmpty then none else some c
        | none => none) := by
  intro ts
  induction ts with
  | nil => rfl
  | cons t ts' ih =>
    rw [List.findSome?_cons]
    unfold firstNonEmpty
    cases hx : extractFromToken t with
    | none =>
      simp only []
      exact ih
    | some c =>
      simp only []
      by_cases hc : c.isEmpty = true
      · rw [if_pos hc, if_pos hc]
        exact ih
      · rw [if_neg hc, if_neg hc]

/-- The list-level normalizer agrees with the specification-level
resolution order. -/
theorem normalizePhotoPathL_eq_resolution (q : List Char) :
    normalizePhotoPathL (some q) =
      resolution_spec (tokenize (pyStrip
        (q.map (fun c => if c = '\\' then '/' else c)))) := by
  by_cases hq : q.isEmpty = true
  · have hq0 : q = [] := by
      cases hd : q
      · rfl
      · rw [hd] at hq; cases hq
    rw [hq0]
    rfl
  · unfold normalizePhotoPathL resolution_spec
    simp only []
    rw [Bool.not_eq_true] at hq
    rw [hq]
    rw [if_neg Bool.false_ne_true]
    rw [← firstUploads_eq_findSome, ← firstNonEmpty_eq_findSome]

/-- Claim C5: the normalizer's resolution order over the token list: the
first token whose candidate is marker-prefixed wins; otherwise the first
token with a non-empty cleaned candidate; otherwise null. -/
theorem C5_resolution_order (p : String) :
    normalize_photo_path (some p) =
      (resolution_spec (tokenize (pyStrip
        (p.data.map (fun c => if c = '\\' then '/' else c))))).map String.mk := by
  show (normalizePhotoPathL (some p.data)).map String.mk = _
  rw [normalizePhotoPathL_eq_resolution]

/-- A clean http(s) token extracts to itself verbatim. -/
theorem extract_http_verbatim {t : List Char}
    (hsf : ∀ c ∈ t, isSep c = false) (hne : t ≠ [])
    (hhttp : isHttpTok t = true) : extractFromToken t = some t := by
  have hstrip := pyStrip_of_sepFree hsf
  have hnemp : t.isEmpty = false := by
    cases t with
    | nil => exact absurd rfl hne
    | cons a l => rfl
  unfold extractFromToken
  simp only []
  rw [hstrip, hnemp]
  rw [if_neg Bool.false_ne_true]
  rw [if_pos hhttp]

/-- Counterexample to Claim C2 as stated: an http token is NOT returned as
the final result when a later token yields an uploads-prefixed candidate —
the first scan loop prefers the marker match over the earlier URL. -/
theorem C2_counterexample :
    normalize_photo_path (some "http://x.com/a.jpg uploads/b.jpg") =
      some "uploads/b.jpg" ∧
    normalize_photo_path (some "http://x.com/a.jpg uploads/b.jpg") ≠
      some "http://x.com/a.jpg" := by
  constructor
  · decide
  · decide

/-- Claim C2 amended: a token beginning with http or https is returned
verbatim by the per-token extraction (the short-circuit is per token, not
over the scan), and the leading URL token is the final result exactly when
no token of the scan yields an uploads-prefixed candidate. -/
theorem C2_url_short_circuit :
    (∀ t : List Char, (∀ c ∈ t, isSep c = false) → t ≠ [] →
      isHttpTok t = true → extractFromToken t = some t) ∧
    (∀ (p : String) (t : List Char) (rest : List (List Char)),
      tokenize (pyStrip
        (p.data.map (fun c => if c = '\\' then '/' else c))) = t :: rest →
      isHttpTok t = true →
      firstUploads (t :: rest) = none →
      normalize_photo_path (some p) = some (String.mk t)) := by
  constructor
  · intro t hsf hne hhttp
    exact extract_http_verbatim hsf hne hhttp
  · intro p t rest htok hhttp hfu
    have hmem : t ∈ tokenize (pyStrip
        (p.data.map (fun c => if c = '\\' then '/' else c))) := by
      rw [htok]
      exact List.mem_cons_self t rest
    rcases tokenize_mem hmem with ⟨hne, hchar⟩
    have hsf : ∀ c ∈ t, isSep c = false := fun c hc => (hchar c hc).1
    have hext : extractFromToken t = some t :=
      extract_http_verbatim hsf hne hhttp
    have hnemp_t : t.isEmpty = false := by
      cases t with
      | nil => exact absurd rfl hne
      | cons a l => rfl
    have hpne : p.data.isEmpty = false := by
      cases hd : p.data with
      | nil =>
        rw [hd] at htok
        cases htok
      | cons a l => rfl
    show (normalizePhotoPathL (some p.data)).map String.mk =
      some (String.mk t)
    have hmain : normalizePhotoPathL (some p.data) = some t := by
      unfold normalizePhotoPathL
      simp only []
      rw [hpne]
      rw [if_neg Bool.false_ne_true]
      rw [htok, hfu]
      simp only []
      unfold firstNonEmpty
      rw [hext]
      simp only []
      rw [hnemp_t]
      rw [if_neg Bool.false_ne_true]
    rw [hmain]
    rfl

/-- Witness for the amended C2: a URL token passes through extraction
verbatim, and wins the scan when no uploads candidate exists. -/
theorem C2_url_short_circuit_witness :
    extractFromToken "http://x.com/a.jpg".data =
      some "http://x.com/a.jpg".data ∧
    normalize_photo_path (some "http://x.com/a.jpg b.txt") =
      some (String.mk "http://x.com/a.jpg".data) :=
  ⟨C2_url_short_circuit.1 "http://x.com/a.jpg".data (by decide) (by decide)
      (by decide),
   C2_url_short_circuit.2 "http://x.com/a.jpg b.txt"
      "http://x.com/a.jpg".data ["b.txt".data] (by decide) (by decide)
      (by decide)⟩

/-- Claim C7: for a non-URL token, the extractor strips one leading drive
prefix and leading slashes, and when the uploads marker occurs in the
cleaned token it returns the suffix starting at the first marker
occurrence; in particular the Windows-path example normalizes to the
marker-relative path. -/
theorem C7_drive_slash_marker :
    (∀ (tok s : List Char), pyStrip tok ≠ [] →
      isHttpTok (pyStrip tok) = false →
      substrFrom uploadsPat
          ((stripDrive (pyStrip tok)).dropWhile (fun c => c == '/')) =
        some s →
      extractFromToken tok = some s ∧ uploadsPat.isPrefixOf s = true ∧
        ∃ pre, (stripDrive (pyStrip tok)).dropWhile (fun c => c == '/') =
          pre ++ s) ∧
    normalize_photo_path (some "C:\\data\\uploads\\a.jpg") =
      some "uploads/a.jpg" := by
  constructor
  · intro tok s hne hhttp hsub
    have hnemp : (pyStrip tok).isEmpty = false := by
      cases hp : pyStrip tok with
      | nil => exact absurd hp hne
      | cons a l => rfl
    refine ⟨?_, (substrFrom_some hsub).1, (substrFrom_some hsub).2⟩
    unfold extractFromToken
    simp only []
    rw [hnemp]
    rw [if_neg Bool.false_ne_true]
    rw [hhttp]
    rw [if_neg Bool.false_ne_true]
    rw [hsub]
  · decide

/-- Witness for C7 on the cleaned Windows-path token. -/
theorem C7_drive_slash_marker_witness :
    extractFromToken "C:/data/uploads/a.jpg".data =
      some "uploads/a.jpg".data :=
  (C7_drive_slash_marker.1 "C:/data/uploads/a.jpg".data
    "uploads/a.jpg".data (by decide) (by decide) (by decide)).1

end Attendance
